import Mathlib

/-!
Verification development for the `md_2_html` repository.

Strings are modelled as `List Char`.  Each Lean definition is a direct
translation of the corresponding Python function in `src/src/x.py` (the
Block Scanner / Site builder module) or `src/Main.py`.  Loop-shaped Python
code is translated into fuel-indexed structural recursion; the fuel is
always instantiated with a value proved sufficient, so the wrappers compute
exactly the Python semantics.
-/

/-- Characters that Python treats as whitespace in `str.strip`, `str.lstrip`
and in the regex class `\s` (ASCII range). -/
def pySpace (c : Char) : Bool :=
  c = ' ' || c = '\t' || c = '\n' || c = '\r' || c = Char.ofNat 11 || c = Char.ofNat 12

/-- Characters matched by the regex class `\w` (ASCII range). -/
def isWordChar (c : Char) : Bool :=
  c.isAlphanum || c = '_'

/-- The backtick character (U+0060). -/
def btick : Char := Char.ofNat 96

/-- The apostrophe character (U+0027). -/
def apos : Char := Char.ofNat 39

/-- Python `str.lstrip()` with no argument: drop leading whitespace. -/
def pyLstrip (s : List Char) : List Char := s.dropWhile pySpace

/-- Python `str.rstrip()` with no argument: drop trailing whitespace. -/
def pyRstrip (s : List Char) : List Char := (s.reverse.dropWhile pySpace).reverse

/-- Python `str.strip()` with no argument. -/
def pyStrip (s : List Char) : List Char := pyRstrip (pyLstrip s)

/-- Python `line.rstrip("\n")`: drop trailing newline characters only. -/
def rstripNL (s : List Char) : List Char := (s.reverse.dropWhile (· = '\n')).reverse

/-- Python `str.lower()` (ASCII behaviour). -/
def pyLower (s : List Char) : List Char := s.map Char.toLower

/-- Python `str.upper()` (ASCII behaviour). -/
def pyUpper (s : List Char) : List Char := s.map Char.toUpper

/-- One character of `html.escape`: `&`, `<`, `>` always become entities;
the two quote characters are escaped only when `quote=True`. -/
def escChar (quote : Bool) (c : Char) : List Char :=
  if c = '&' then ("&amp;").toList
  else if c = '<' then ("&lt;").toList
  else if c = '>' then ("&gt;").toList
  else if quote && c = '"' then ("&quot;").toList
  else if quote && c = apos then ("&#x27;").toList
  else [c]

/-- Python `html.escape(s, quote)`.  The sequential `str.replace` calls in
the CPython implementation are equivalent to this single character map
because no replacement string contains a character that a later replace
rewrites. -/
def htmlEscape (quote : Bool) (s : List Char) : List Char :=
  s.flatMap (escChar quote)

/-- One attempted match of a pattern `dO ([^bad]+) dC` at the head of `s`
(the shape of all five `INLINE_RULES` regexes).  Returns the captured group
and the remainder of the string after the match. -/
def splitMatch (dO : List Char) (bad : Char) (dC : List Char) (s : List Char) :
    Option (List Char × List Char) :=
  if dO.isPrefixOf s then
    let r := s.drop dO.length
    let content := r.takeWhile (fun c => c ≠ bad)
    if content = [] then none
    else
      let r2 := r.dropWhile (fun c => c ≠ bad)
      if dC.isPrefixOf r2 then some (content, r2.drop dC.length) else none
  else none

/-- Fuel-indexed engine for `re.sub` with a pattern `dO ([^bad]+) dC` and a
replacement `pre \1 post`: leftmost non-overlapping matches, scanning
left-to-right, advancing one character when no match starts at the current
position. -/
def subGo (dO : List Char) (bad : Char) (dC pre post : List Char) :
    Nat → List Char → List Char
  | 0, s => s
  | _ + 1, [] => []
  | f + 1, ch :: rest =>
    match splitMatch dO bad dC (ch :: rest) with
    | some (content, after) => pre ++ content ++ post ++ subGo dO bad dC pre post f after
    | none => ch :: subGo dO bad dC pre post f rest

/-- `re.sub` for one of the `INLINE_RULES`. -/
def subRule (dO : List Char) (bad : Char) (dC pre post s : List Char) : List Char :=
  subGo dO bad dC pre post s.length s

/-- `inline_md` from `src/src/x.py` (identical in `src/Main.py`): HTML-escape
with `quote=False`, then apply the five inline substitution rules in their
fixed order. -/
def inline_md (text : List Char) : List Char :=
  let t0 := htmlEscape false text
  let t1 := subRule ("`").toList btick ("`").toList ("<code>").toList ("</code>").toList t0
  let t2 := subRule ("**").toList '*' ("**").toList ("<strong>").toList ("</strong>").toList t1
  let t3 := subRule ("__").toList '_' ("__").toList ("<u>").toList ("</u>").toList t2
  let t4 := subRule ("*").toList '*' ("*").toList ("<em>").toList ("</em>").toList t3
  let t5 := subRule ("_").toList '_' ("_").toList ("<em>").toList ("</em>").toList t4
  t5

/-- `RE_BLANK = ^\s*$`: the line is entirely whitespace. -/
def isBlank (l : List Char) : Bool := l.all pySpace

/-- `RE_CALLOUT = ^>\s*\[!(\w+)\]\s*(.*)$`.  Returns `(kind, group2)`;
`group2` is the text after the whitespace run that follows `]`. -/
def parseCallout (l : List Char) : Option (List Char × List Char) :=
  match l with
  | c0 :: r =>
    if c0 = '>' then
      match r.dropWhile pySpace with
      | b1 :: b2 :: r2 =>
        if b1 = '[' ∧ b2 = '!' then
          let kind := r2.takeWhile isWordChar
          if kind = [] then none
          else
            match r2.dropWhile isWordChar with
            | br :: r3 => if br = ']' then some (kind, r3.dropWhile pySpace) else none
            | [] => none
        else none
      | _ => none
    else none
  | [] => none

/-- `RE_FENCE = ^```(\w*)\s*$`.  Returns the language tag. -/
def parseFence (l : List Char) : Option (List Char) :=
  match l with
  | c1 :: c2 :: c3 :: r =>
    if c1 = btick ∧ c2 = btick ∧ c3 = btick then
      if (r.dropWhile isWordChar).all pySpace then some (r.takeWhile isWordChar) else none
    else none
  | _ => none

/-- `RE_LATEX_BLOCK = ^\$\$\s*$`. -/
def isLatexDelim (l : List Char) : Bool :=
  match l with
  | c1 :: c2 :: r => c1 = '$' && c2 = '$' && r.all pySpace
  | _ => false

/-- `RE_HEADER = ^(#{1,6})\s*(.*)$` from `src/src/x.py`.  The run of leading
`#` is captured greedily but the group is capped at six characters; `group2`
is the rest of the line after the following whitespace run.  Returns
`(level, group2)`. -/
def parseHeader (l : List Char) : Option (Nat × List Char) :=
  let hashes := l.takeWhile (fun c => c = '#')
  if hashes = [] then none
  else
    let level := min hashes.length 6
    some (level, (l.drop level).dropWhile pySpace)

/-- `RE_IMAGE = ^\s*!\[\[([^|\]]+)(?:\|[^]]*)?]]\s*$`.  Returns `group1`,
the raw image name (before `strip` and escaping). -/
def parseImage (l : List Char) : Option (List Char) :=
  match l.dropWhile pySpace with
  | c1 :: c2 :: c3 :: r =>
    if c1 = '!' ∧ c2 = '[' ∧ c3 = '[' then
      let nameChar := fun c => c ≠ '|' && c ≠ ']'
      let name := r.takeWhile nameChar
      if name = [] then none
      else
        let r2 := r.dropWhile nameChar
        let r3 := match r2 with
          | p :: r2t => if p = '|' then r2t.dropWhile (fun c => c ≠ ']') else r2
          | [] => r2
        match r3 with
        | b1 :: b2 :: r4 =>
          if b1 = ']' ∧ b2 = ']' ∧ r4.all pySpace then some name else none
        | _ => none
    else none
  | _ => none

/-- The `CALLOUT_ICONS` table with its `.get(..., default)` lookup on the
upper-cased kind. -/
def calloutIcon (kind : List Char) : List Char :=
  let k := pyUpper kind
  if k = ("NOTE").toList then ("&#8505;").toList
  else if k = ("INFO").toList then ("&#8505;").toList
  else if k = ("TIP").toList then ("&#128161;").toList
  else if k = ("IMPORTANT").toList then ("&#10071;").toList
  else if k = ("WARNING").toList then ("&#9888;").toList
  else if k = ("CAUTION").toList then ("&#9888;").toList
  else if k = ("DANGER").toList then ("&#128293;").toList
  else ("&#8505;").toList

/-- `build_callout` from `src/src/x.py`. -/
def build_callout (kind title : List Char) (body_lines : List (List Char)) : List Char :=
  let icon := calloutIcon kind
  let title_html := if title = [] then [] else inline_md title
  let body_html :=
    (body_lines.map (fun ln => ("<p>").toList ++ inline_md ln ++ ("</p>").toList)).flatten
  ("<div class=\"callout callout-").toList ++ pyLower kind ++ ("\">").toList ++
  ("<div class=\"callout-title\">").toList ++ icon ++ [' '] ++ title_html ++
  ("<button class=\"toggle\" onclick=\"toggleCallout(this)\">-</button>").toList ++
  ("</div>").toList ++
  ("<div class=\"callout-body\">").toList ++ body_html ++ ("</div>").toList ++
  ("</div>").toList

/-- `CODE_BLOCK_TEMPLATE.format(lang=lang, code=code)` from `src/templates.py`. -/
def codeBlockTemplate (lang code : List Char) : List Char :=
  ("<div class=\"code-block\">").toList ++
  ("<button class=\"copy\" onclick=\"copySibling(this)\">Copy</button>").toList ++
  ("<pre><code class=\"language-").toList ++ lang ++ ("\">").toList ++ code ++
  ("</code></pre>").toList ++ ("</div>").toList

/-- `"\n".join(lines)`. -/
def joinNL (ls : List (List Char)) : List Char := List.intercalate [('\n')] ls

/-- The callout body loop of `_convert_lines` (x.py lines 137-140): consume
following lines starting with `>`, storing `line[1:].lstrip()` for each;
return the collected body and the unconsumed rest. -/
def calloutTake : List (List Char) → List (List Char) × List (List Char)
  | [] => ([], [])
  | l :: ls =>
    if l.head? = some '>' then
      let pr := calloutTake ls
      (pyLstrip (l.drop 1) :: pr.1, pr.2)
    else ([], l :: ls)

/-- The fenced-code body loop of `_convert_lines` (x.py lines 146-151):
consume lines until the next fence line (which is skipped), collecting
`line.rstrip("\n")`. -/
def fenceTake : List (List Char) → List (List Char) × List (List Char)
  | [] => ([], [])
  | l :: ls =>
    if (parseFence l).isSome then ([], ls)
    else
      let pr := fenceTake ls
      (rstripNL l :: pr.1, pr.2)

/-- The LaTeX body loop of `_convert_lines` (x.py lines 157-163). -/
def latexTake : List (List Char) → List (List Char) × List (List Char)
  | [] => ([], [])
  | l :: ls =>
    if isLatexDelim l then ([], ls)
    else
      let pr := latexTake ls
      (rstripNL l :: pr.1, pr.2)

/-- Decimal rendering of a level for the f-string `<h{level}>`. -/
def natChars (n : Nat) : List Char := (Nat.repr n).toList

/-- The image fragment f-string (x.py line 177), applied to the already
escaped name. -/
def imageFrag (n : List Char) : List Char :=
  ("<img src=\"../graphics/").toList ++ n ++ ("\" alt=\"").toList ++ n ++ ("\">").toList

/-- Fuel-indexed main loop of `_convert_lines` (x.py lines 126-184): the
rule dispatch in source order (blank, callout, fence, LaTeX, header, image,
paragraph).  The fuel bounds the number of iterations; `lines.length`
suffices because every iteration consumes at least one line. -/
def scanGo : Nat → List (List Char) → List (List Char)
  | 0, _ => []
  | _ + 1, [] => []
  | f + 1, l :: ls =>
    if isBlank l then scanGo f ls
    else
      match parseCallout l with
      | some kt =>
        let pr := calloutTake ls
        build_callout kt.1 (pyStrip kt.2) pr.1 :: scanGo f pr.2
      | none =>
        match parseFence l with
        | some lang =>
          let pr := fenceTake ls
          codeBlockTemplate lang (htmlEscape true (joinNL pr.1)) :: scanGo f pr.2
        | none =>
          if isLatexDelim l then
            let pr := latexTake ls
            (("<p>$$\n").toList ++ joinNL pr.1 ++ ("\n$$</p>").toList) :: scanGo f pr.2
          else
            match parseHeader l with
            | some lv =>
              (("<h").toList ++ natChars lv.1 ++ (">").toList ++
                inline_md (pyStrip lv.2) ++
                ("</h").toList ++ natChars lv.1 ++ (">").toList) :: scanGo f ls
            | none =>
              match parseImage l with
              | some nm =>
                imageFrag (htmlEscape true (pyStrip nm)) :: scanGo f ls
              | none =>
                (("<p>").toList ++ inline_md (rstripNL l) ++ ("</p>").toList) :: scanGo f ls

/-- The main loop of `_convert_lines`, fuel instantiated. -/
def scanLines (lines : List (List Char)) : List (List Char) :=
  scanGo lines.length lines

/-- The front-matter skip of `_convert_lines` (x.py lines 120-124): if line 0
strips to `---`, drop every line up to and including the next line stripping
to `---` (all remaining lines when no such line exists). -/
def fmSkip (lines : List (List Char)) : List (List Char) :=
  match lines with
  | [] => []
  | l0 :: rest =>
    if pyStrip l0 = ("---").toList then
      (rest.dropWhile (fun l => pyStrip l ≠ ("---").toList)).drop 1
    else l0 :: rest

/-- `_convert_lines` from `src/src/x.py`. -/
def _convert_lines (lines : List (List Char)) : List (List Char) :=
  scanLines (fmSkip lines)

/-- `str((root_dir / item).as_posix())` for the plain names produced by the
directory walk: pathlib drops a bare `.` (or empty) root and joins the rest
with `/`. -/
def joinPosix (root item : List Char) : List Char :=
  if root = (".").toList ∨ root = [] then item else root ++ [('/')] ++ item

/-- The index of the last `.` in a name (`str.rfind`). -/
def rfindDot (s : List Char) : Option Nat :=
  (s.reverse.findIdx? (fun c => c = '.')).map (fun j => s.length - 1 - j)

/-- `str(Path(name).with_suffix(".html"))` for a plain file name: pathlib
recognises a suffix only when the last dot is neither the first nor the last
character; the suffix is removed and `.html` appended. -/
def withSuffixHtml (name : List Char) : List Char :=
  match rfindDot name with
  | some i =>
    if 0 < i ∧ i < name.length - 1 then name.take i ++ (".html").toList
    else name ++ (".html").toList
  | none => name ++ (".html").toList

/-- The local `make_link` closure of `_build_links` (x.py lines 193-196). -/
def make_link (root item : List Char) : List Char :=
  ("<a href=\"").toList ++ htmlEscape true (joinPosix root item) ++ ("\">").toList ++
  htmlEscape true item ++ ("</a>").toList

/-- `_build_links` from `src/src/x.py` (lines 189-211), with the two
`for`-loop accumulations rendered as left folds over the `parts` list.  Note
that each leaf name is rebound to its `.html` form *before* `make_link` is
called, so both the href and the anchor text use the rewritten name. -/
def _build_links (terminal_sites valid_dirs : List (List Char)) (root : List Char) :
    List (List Char) :=
  let parts : List (List Char) := []
  let parts :=
    if terminal_sites = [] then parts
    else
      (terminal_sites.foldl
        (fun acc site =>
          acc ++ [("<li>").toList ++ make_link root (withSuffixHtml site) ++ ("</li>").toList])
        (parts ++ [("<ul>").toList])) ++ [("</ul>").toList]
  let parts :=
    if valid_dirs = [] then parts
    else
      (valid_dirs.foldl
        (fun acc d =>
          acc ++ [("<li>").toList ++ make_link root d ++ ("</li>").toList])
        (parts ++ [("<ul>").toList])) ++ [("</ul>").toList]
  parts

/-- The literal placement marker of `_embed_in_template`. -/
def placementMarker : List Char := ("<div id=\"placement\"></div>").toList

/-- Fuel-indexed engine for Python `str.replace(old, new)`: replace all
non-overlapping occurrences left-to-right. -/
def replGo (pat repl : List Char) : Nat → List Char → List Char
  | 0, s => s
  | _ + 1, [] => []
  | f + 1, ch :: rest =>
    if pat ≠ [] ∧ pat.isPrefixOf (ch :: rest) then
      repl ++ replGo pat repl f ((ch :: rest).drop pat.length)
    else ch :: replGo pat repl f rest

/-- Python `template.replace(pat, repl)` for a non-empty pattern. -/
def pyReplace (template pat repl : List Char) : List Char :=
  replGo pat repl template.length template

/-- `_embed_in_template` from `src/src/x.py` (lines 214-218), with the shell
file contents passed as a string: `template.replace(placeholder,
f'<div id="placement">{content_html}</div>')`. -/
def _embed_in_template (content_html template : List Char) : List Char :=
  pyReplace template placementMarker
    (("<div id=\"placement\">").toList ++ content_html ++ ("</div>").toList)

/-- One entry of `path.iterdir()`: its name and whether `item.is_file()`. -/
structure DirEntry where
  name : List Char
  isFile : Bool
deriving DecidableEq

/-- `is_valid_dir` from `src/src/x.py` (lines 68-73): some entry is a file
whose lower-cased name starts with `readme` and ends with `.md`. -/
def is_valid_dir (entries : List DirEntry) : Bool :=
  entries.any (fun e =>
    e.isFile && (("readme").toList.isPrefixOf (pyLower e.name)
      && (".md").toList.isSuffixOf (pyLower e.name)))

/-- Python `pat in s` for strings: `pat` occurs as a contiguous substring. -/
def containsSub (pat : List Char) : List Char → Bool
  | [] => pat.isEmpty
  | c :: r => pat.isPrefixOf (c :: r) || containsSub pat r

/-- All characters that can occur inside an entity emitted by `escChar`. -/
def entityChars : List Char := ("&amp;ltgquox27#").toList

lemma replGo_of_not_contains (pat repl : List Char) :
    ∀ (f : Nat) (s : List Char), containsSub pat s = false → replGo pat repl f s = s := by
  intro f
  induction f with
  | zero => intro s _; rfl
  | succ f ih =>
    intro s hs
    cases s with
    | nil => rfl
    | cons c r =>
      have hor : pat.isPrefixOf (c :: r) = false ∧ containsSub pat r = false := by
        simpa [containsSub] using hs
      rw [replGo]
      rw [if_neg (by simp [hor.1])]
      rw [ih r hor.2]

lemma foldl_append_map {α β : Type} (f : α → β) :
    ∀ (l : List α) (init : List β),
      l.foldl (fun acc x => acc ++ [f x]) init = init ++ l.map f := by
  intro l
  induction l with
  | nil => intro init; simp
  | cons a l ih => intro init; simp [ih]




/-- C1 counterexample: on a shell that lacks the placement marker,
`_embed_in_template` raises no error and returns the shell unchanged — the
supplied content does not occur anywhere in the result, so a pageless
document is emitted silently. -/
theorem embed_missing_marker_cex :
    _embed_in_template ("HELLO").toList ("<html><body></body></html>").toList =
      ("<html><body></body></html>").toList ∧
    containsSub ("HELLO").toList
      (_embed_in_template ("HELLO").toList ("<html><body></body></html>").toList) = false := by
  decide

/-- C1 amended: for every content string and every shell document that does
not contain the placement marker, `_embed_in_template` silently returns the
shell unchanged (a no-op, not a reported configuration error). -/
theorem embed_missing_marker_noop (content template : List Char)
    (h : containsSub placementMarker template = false) :
    _embed_in_template content template = template := by
  unfold _embed_in_template pyReplace
  exact replGo_of_not_contains _ _ _ _ h

theorem embed_missing_marker_noop_witness :
    containsSub placementMarker ("<html></html>").toList = false ∧
      _embed_in_template ("Y").toList ("<html></html>").toList = ("<html></html>").toList :=
  ⟨by decide, embed_missing_marker_noop (("Y").toList) (("<html></html>").toList) (by decide)⟩

/-- C2 counterexample: a directory containing the single file
`readme-notes.md` is accepted by `is_valid_dir`, yet no entry's name
case-insensitively equals `README.md`. -/
theorem is_valid_dir_cex :
    is_valid_dir [⟨("readme-notes.md").toList, true⟩] = true ∧
      ¬ ∃ e ∈ [DirEntry.mk ("readme-notes.md").toList true],
          pyLower e.name = ("readme.md").toList := by
  decide

/-- C2 amended: `is_valid_dir` returns true iff the directory directly
contains a file whose lower-cased name starts with `readme` and ends with
`.md` (not only a name case-insensitively equal to `README.md`). -/
theorem is_valid_dir_iff (entries : List DirEntry) :
    is_valid_dir entries = true ↔
      ∃ e ∈ entries, e.isFile = true ∧
        ("readme").toList <+: pyLower e.name ∧ (".md").toList <:+ pyLower e.name := by
  simp [is_valid_dir, List.any_eq_true, Bool.and_eq_true,
    List.isPrefixOf_iff_prefix, List.isSuffixOf_iff_suffix]

/-- C3 counterexample: for the leaf list `[a.md]`, the anchor's visible text
is `a.html` — the extension-rewritten name — not the escaped original name
`a.md` that the claim requires. -/
theorem build_links_text_cex :
    _build_links [("a.md").toList] [] ("site").toList =
      [("<ul>").toList,
       ("<li><a href=\"site/a.html\">a.html</a></li>").toList,
       ("</ul>").toList] ∧
    _build_links [("a.md").toList] [] ("site").toList ≠
      [("<ul>").toList,
       ("<li><a href=\"site/a.html\">a.md</a></li>").toList,
       ("</ul>").toList] := by
  decide

/-- C3 amended: each leaf link's href joins the root to the name with its
extension rewritten to `.html`, and the anchor's visible text is the escaped
rewritten name (directory names get no rewrite); leaf links come first as
one unordered list, directory links follow as a second, and an empty input
list produces no corresponding `<ul>` at all. -/
theorem build_links_characterization (ts ds : List (List Char)) (root : List Char) :
    _build_links ts ds root =
      (if ts = [] then []
       else ("<ul>").toList ::
         ts.map (fun s =>
           ("<li>").toList ++ make_link root (withSuffixHtml s) ++ ("</li>").toList) ++
         [("</ul>").toList]) ++
      (if ds = [] then []
       else ("<ul>").toList ::
         ds.map (fun d =>
           ("<li>").toList ++ make_link root d ++ ("</li>").toList) ++
         [("</ul>").toList]) := by
  unfold _build_links
  by_cases hts : ts = [] <;> by_cases hds : ds = [] <;>
    simp [hts, hds, foldl_append_map]

/-- C8: scanning the two-line input ```` ```sh ```` / `echo hi` with no
closing fence yields exactly one fragment: a code block with language class
`language-sh` whose body is the HTML-escape of `echo hi`, and nothing else. -/
theorem unterminated_fence_single_fragment :
    _convert_lines [("```sh").toList, ("echo hi").toList] =
      [("<div class=\"code-block\"><button class=\"copy\" onclick=\"copySibling(this)\">Copy</button><pre><code class=\"language-sh\">echo hi</code></pre></div>").toList] := by
  decide

lemma calloutTake_len : ∀ ls : List (List Char), (calloutTake ls).2.length ≤ ls.length := by
  intro ls
  induction ls with
  | nil => simp [calloutTake]
  | cons l ls ih =>
    by_cases h : l.head? = some '>'
    · simpa [calloutTake, h] using Nat.le_succ_of_le ih
    · simp [calloutTake, h]

lemma fenceTake_len : ∀ ls : List (List Char), (fenceTake ls).2.length ≤ ls.length := by
  intro ls
  induction ls with
  | nil => simp [fenceTake]
  | cons l ls ih =>
    by_cases h : (parseFence l).isSome
    · simp [fenceTake, h]
    · simpa [fenceTake, h] using Nat.le_succ_of_le ih

lemma latexTake_len : ∀ ls : List (List Char), (latexTake ls).2.length ≤ ls.length := by
  intro ls
  induction ls with
  | nil => simp [latexTake]
  | cons l ls ih =>
    by_cases h : isLatexDelim l = true
    · simp [latexTake, h]
    · simpa [latexTake, h] using Nat.le_succ_of_le ih

lemma scanGo_congr : ∀ (f g : Nat) (ls : List (List Char)),
    ls.length ≤ f → ls.length ≤ g → scanGo f ls = scanGo g ls := by
  intro f
  induction f with
  | zero =>
    intro g ls hf _
    have h : ls = [] := List.length_eq_zero.mp (Nat.le_zero.mp hf)
    subst h
    cases g <;> rfl
  | succ f ih =>
    intro g ls hf hg
    cases ls with
    | nil => cases g <;> rfl
    | cons l ls =>
      cases g with
      | zero => simp at hg
      | succ g =>
        have hf' : ls.length ≤ f := by simpa using hf
        have hg' : ls.length ≤ g := by simpa using hg
        simp only [scanGo]
        by_cases hb : isBlank l = true
        · simp only [hb, if_true]
          exact ih g ls hf' hg'
        · simp only [hb, if_false]
          cases hc : parseCallout l with
          | some kt =>
            simp only []
            rw [ih g _ (Nat.le_trans (calloutTake_len ls) hf')
              (Nat.le_trans (calloutTake_len ls) hg')]
            simp
          | none =>
            simp only []
            cases hp : parseFence l with
            | some lang =>
              simp only []
              rw [ih g _ (Nat.le_trans (fenceTake_len ls) hf')
                (Nat.le_trans (fenceTake_len ls) hg')]
              simp
            | none =>
              simp only []
              by_cases hl : isLatexDelim l = true
              · simp only [hl, if_true]
                rw [ih g _ (Nat.le_trans (latexTake_len ls) hf')
                  (Nat.le_trans (latexTake_len ls) hg')]
                simp
              · simp only [hl, if_false]
                cases hh : parseHeader l with
                | some lv =>
                  simp only []
                  rw [ih g ls hf' hg']
                  simp [hl]
                | none =>
                  simp only []
                  cases hi : parseImage l with
                  | some nm =>
                    simp only []
                    rw [ih g ls hf' hg']
                    simp [hl]
                  | none =>
                    simp only []
                    rw [ih g ls hf' hg']
                    simp [hl]

lemma scanGo_eq_scanLines (f : Nat) (ls : List (List Char)) (h : ls.length ≤ f) :
    scanGo f ls = scanLines ls :=
  scanGo_congr f ls.length ls h (Nat.le_refl _)

lemma parseCallout_cons_none {c : Char} {r : List Char} (h : c ≠ '>') :
    parseCallout (c :: r) = none := by
  simp [parseCallout, h]

lemma parseFence_cons_none {c : Char} {r : List Char} (h : c ≠ btick) :
    parseFence (c :: r) = none := by
  cases r with
  | nil => rfl
  | cons c2 r2 =>
    cases r2 with
    | nil => rfl
    | cons c3 r3 => simp [parseFence, h]

lemma isLatexDelim_cons_false {c : Char} {r : List Char} (h : c ≠ '$') :
    isLatexDelim (c :: r) = false := by
  cases r with
  | nil => rfl
  | cons c2 r2 => simp [isLatexDelim, h]

lemma parseHeader_cons_none {c : Char} {r : List Char} (h : c ≠ '#') :
    parseHeader (c :: r) = none := by
  simp [parseHeader, List.takeWhile_cons, h]

lemma isBlank_cons_false {c : Char} {r : List Char} (h : pySpace c = false) :
    isBlank (c :: r) = false := by
  simp [isBlank, h]

/-- C10: the block scanner terminates on every finite list of lines.  Each
of the three inner consumption loops returns a rest no longer than its
input, and a fuel equal to the number of remaining lines suffices for the
main loop: `scanGo f` computes `scanLines` whenever `f` is at least the
number of lines, because every iteration strictly decreases the number of
unscanned lines. -/
theorem scanner_terminates :
    (∀ ls : List (List Char), (calloutTake ls).2.length ≤ ls.length) ∧
    (∀ ls : List (List Char), (fenceTake ls).2.length ≤ ls.length) ∧
    (∀ ls : List (List Char), (latexTake ls).2.length ≤ ls.length) ∧
    (∀ (f : Nat) (ls : List (List Char)), ls.length ≤ f → scanGo f ls = scanLines ls) :=
  ⟨calloutTake_len, fenceTake_len, latexTake_len, fun f ls h => scanGo_eq_scanLines f ls h⟩

theorem scanner_terminates_witness :
    (calloutTake [("> a").toList]).2.length ≤ 1 ∧
      scanGo 7 [("# a").toList] = scanLines [("# a").toList] :=
  ⟨scanner_terminates.1 [("> a").toList],
    scanner_terminates.2.2.2 7 [("# a").toList] (by decide)⟩

/-- C7: front matter never reaches the output.  If line 0 strips to `---`
and none of the lines `fm` strips to `---`, then (a) with a closing
delimiter line the scan output is exactly the scan of the lines after the
closer — no front-matter line contributes any fragment — and (b) with no
closing delimiter the whole remainder is consumed as front matter and the
scan produces no fragments at all. -/
theorem front_matter_discarded (l0 : List Char) (fm tl : List (List Char))
    (h0 : pyStrip l0 = ("---").toList)
    (hfm : ∀ l ∈ fm, pyStrip l ≠ ("---").toList) :
    (∀ closer : List Char, pyStrip closer = ("---").toList →
      _convert_lines (l0 :: (fm ++ closer :: tl)) = scanLines tl) ∧
    _convert_lines (l0 :: fm) = [] := by
  constructor
  · intro closer hc
    simp only [_convert_lines, fmSkip]
    rw [if_pos h0]
    rw [List.dropWhile_append_of_pos (by intro l hl; simpa using hfm l hl)]
    rw [List.dropWhile_cons_of_neg (by simpa using hc)]
    simp
  · simp only [_convert_lines, fmSkip]
    rw [if_pos h0]
    rw [List.dropWhile_eq_nil_iff.mpr (by intro l hl; simpa using hfm l hl)]
    rfl

theorem front_matter_discarded_witness :
    pyStrip ("---").toList = ("---").toList ∧
      _convert_lines
        [("---").toList, ("title: x").toList, ("---").toList, ("hello").toList] =
        scanLines [("hello").toList] :=
  ⟨by decide,
    (front_matter_discarded (("---").toList) [("title: x").toList] [("hello").toList]
      (by decide) (by decide)).1 (("---").toList) (by decide)⟩

lemma calloutTake_spec (body rest : List (List Char))
    (hbody : ∀ l ∈ body, l.head? = some '>')
    (hrest : ∀ r, rest.head? = some r → r.head? ≠ some '>') :
    calloutTake (body ++ rest) = (body.map (fun l => pyLstrip (l.drop 1)), rest) := by
  induction body with
  | nil =>
    cases rest with
    | nil => rfl
    | cons r rs =>
      have hr : r.head? ≠ some '>' := hrest r rfl
      simp [calloutTake, hr]
  | cons b bs ih =>
    have hb : b.head? = some '>' := hbody b (by simp)
    simp only [List.cons_append, calloutTake, hb, if_pos]
    simp [ih (fun l hl => hbody l (by simp [hl]))]

lemma parseCallout_head {l : List Char} {kt : List Char × List Char}
    (h : parseCallout l = some kt) : l.head? = some '>' := by
  cases l with
  | nil => simp [parseCallout] at h
  | cons c0 r =>
    by_cases h0 : c0 = '>'
    · simp [h0]
    · simp [parseCallout, h0] at h

set_option maxRecDepth 8000 in
/-- C5 counterexample: the body line `>   abc` is stored with *all* the
whitespace after the marker removed (`abc`), not with a single space removed
(which would leave `  abc`). -/
theorem callout_body_cex :
    _convert_lines [("> [!NOTE] T").toList, (">   abc").toList] =
      [build_callout ("NOTE").toList ("T").toList [("abc").toList]] ∧
    _convert_lines [("> [!NOTE] T").toList, (">   abc").toList] ≠
      [build_callout ("NOTE").toList ("T").toList [("  abc").toList]] := by
  decide

/-- C5 amended: each body line stored for a callout is the immediately
following `>`-prefixed input line with the leading `>` marker and *all*
following whitespace removed (`line[1:].lstrip()`); body consumption stops
at the first line not starting with `>` or at end of input. -/
theorem callout_body_consumption (start : List Char) (kt : List Char × List Char)
    (body rest : List (List Char))
    (hstart : parseCallout start = some kt)
    (hbody : ∀ l ∈ body, l.head? = some '>')
    (hrest : ∀ r, rest.head? = some r → r.head? ≠ some '>') :
    scanLines (start :: (body ++ rest)) =
      build_callout kt.1 (pyStrip kt.2) (body.map (fun l => pyLstrip (l.drop 1))) ::
        scanLines rest := by
  have hhead : start.head? = some '>' := parseCallout_head hstart
  obtain ⟨s0, sr, rfl⟩ : ∃ s0 sr, start = s0 :: sr := by
    cases start with
    | nil => simp at hhead
    | cons a t => exact ⟨a, t, rfl⟩
  have h0 : s0 = '>' := by simpa using hhead
  subst h0
  have hblank : isBlank ('>' :: sr) = false := isBlank_cons_false (by decide)
  simp only [scanLines, List.length_cons, scanGo, hblank, hstart]
  rw [calloutTake_spec body rest hbody hrest]
  simp only [Bool.false_eq_true, if_false, List.length_append]
  congr 1
  exact scanGo_congr _ _ rest (by simp) (Nat.le_refl _)

theorem callout_body_consumption_witness :
    parseCallout ("> [!TIP] t").toList = some (("TIP").toList, ("t").toList) ∧
      scanLines [("> [!TIP] t").toList, ("> one").toList, ("x").toList] =
        build_callout ("TIP").toList (pyStrip ("t").toList)
          ([("> one").toList].map (fun l => pyLstrip (l.drop 1))) ::
          scanLines [("x").toList] :=
  ⟨by decide,
    callout_body_consumption (("> [!TIP] t").toList) ((("TIP").toList, ("t").toList))
      [("> one").toList] [("x").toList] (by decide) (by decide) (by decide)⟩

lemma takeWhile_replicate_hash (n : Nat) (rest : List Char)
    (hrest : rest.head? ≠ some '#') :
    (List.replicate n '#' ++ rest).takeWhile (fun c => c = '#') = List.replicate n '#' := by
  rw [List.takeWhile_append_of_pos (by intro a ha; simp [List.eq_of_mem_replicate ha])]
  cases rest with
  | nil => simp
  | cons r rs =>
    have hr : r ≠ '#' := fun h => hrest (by simp [h])
    simp [List.takeWhile_cons, hr]

/-- C6 counterexample: a line starting with seven `#` characters does not
fall through to the paragraph rule — the x.py scanner matches it as a
header of level six, keeping the surplus `#` in the text. -/
theorem header_overflow_cex :
    _convert_lines [("####### t").toList] = [("<h6># t</h6>").toList] ∧
    _convert_lines [("####### t").toList] ≠ [("<p>####### t</p>").toList] := by
  decide

/-- C6 amended: a line beginning with a run of `n ≥ 1` `#` characters is
always matched by the header rule of the x.py scanner; the emitted level is
`min n 6` — the exact run length for `1 ≤ n ≤ 6`, and clamped to six with
the surplus `#` characters left in the header text for `n > 6` (no
fall-through to the paragraph rule). -/
theorem header_run_level (n : Nat) (rest : List Char) (ls : List (List Char))
    (hn : 1 ≤ n) (hrest : rest.head? ≠ some '#') :
    scanLines ((List.replicate n '#' ++ rest) :: ls) =
      (("<h").toList ++ natChars (min n 6) ++ (">").toList ++
        inline_md (pyStrip
          (((List.replicate n '#' ++ rest).drop (min n 6)).dropWhile pySpace)) ++
        ("</h").toList ++ natChars (min n 6) ++ (">").toList) :: scanLines ls := by
  obtain ⟨m, rfl⟩ : ∃ m, n = m + 1 := ⟨n - 1, by omega⟩
  have hcons : List.replicate (m + 1) '#' ++ rest = '#' :: (List.replicate m '#' ++ rest) := by
    simp [List.replicate_succ]
  have hblank : isBlank (List.replicate (m + 1) '#' ++ rest) = false := by
    rw [hcons]; exact isBlank_cons_false (by decide)
  have hcallout : parseCallout (List.replicate (m + 1) '#' ++ rest) = none := by
    rw [hcons]; exact parseCallout_cons_none (by decide)
  have hfence : parseFence (List.replicate (m + 1) '#' ++ rest) = none := by
    rw [hcons]; exact parseFence_cons_none (by decide)
  have hlatex : isLatexDelim (List.replicate (m + 1) '#' ++ rest) = false := by
    rw [hcons]; exact isLatexDelim_cons_false (by decide)
  have hheader : parseHeader (List.replicate (m + 1) '#' ++ rest) =
      some (min (m + 1) 6,
        ((List.replicate (m + 1) '#' ++ rest).drop (min (m + 1) 6)).dropWhile pySpace) := by
    simp only [parseHeader, takeWhile_replicate_hash (m + 1) rest hrest]
    rw [if_neg (by simp)]
    simp
  simp only [scanLines, List.length_cons, scanGo, hblank, hcallout, hfence, hlatex, hheader,
    Bool.false_eq_true, if_false]

theorem header_run_level_witness :
    1 ≤ 7 ∧ (" Title").toList.head? ≠ some '#' ∧
      scanLines [(List.replicate 7 '#' ++ (" Title").toList)] =
        (("<h").toList ++ natChars (min 7 6) ++ (">").toList ++
          inline_md (pyStrip
            (((List.replicate 7 '#' ++ (" Title").toList).drop (min 7 6)).dropWhile pySpace)) ++
          ("</h").toList ++ natChars (min 7 6) ++ (">").toList) :: scanLines [] :=
  ⟨by decide, by decide,
    header_run_level 7 ((" Title").toList) [] (by decide) (by decide)⟩

lemma parseImage_not_blank {l name : List Char} (h : parseImage l = some name) :
    isBlank l = false := by
  by_contra hb
  have hb' : isBlank l = true := by simpa using hb
  have hnil : l.dropWhile pySpace = [] :=
    List.dropWhile_eq_nil_iff.mpr (fun x hx => (List.all_eq_true.mp hb') x hx)
  unfold parseImage at h
  rw [hnil] at h
  simp at h

lemma parseImage_head {l name : List Char} (h : parseImage l = some name) :
    ∃ a t, l = a :: t ∧ (pySpace a = true ∨ a = '!') := by
  cases l with
  | nil => simp [parseImage] at h
  | cons a t =>
    refine ⟨a, t, rfl, ?_⟩
    by_cases hs : pySpace a = true
    · exact Or.inl hs
    · refine Or.inr ?_
      by_contra ha
      have hd : (a :: t).dropWhile pySpace = a :: t :=
        List.dropWhile_cons_of_neg (by simp [hs])
      unfold parseImage at h
      rw [hd] at h
      cases t with
      | nil => simp at h
      | cons b t2 =>
        cases t2 with
        | nil => simp at h
        | cons c t3 => simp [ha] at h

/-- C9: every line matching the image regex produces exactly the fragment
`<img src="../graphics/N" alt="N">` where `N` is the escaped (stripped)
captured name; any `|option` suffix is not part of the captured name and is
discarded. -/
theorem image_fragment (line name : List Char) (ls : List (List Char))
    (h : parseImage line = some name) :
    scanLines (line :: ls) =
      imageFrag (htmlEscape true (pyStrip name)) :: scanLines ls := by
  obtain ⟨a, t, rfl, hcase⟩ := parseImage_head h
  have ha : a ≠ '>' ∧ a ≠ btick ∧ a ≠ '$' ∧ a ≠ '#' := by
    rcases hcase with hs | hex
    · refine ⟨?_, ?_, ?_, ?_⟩ <;> (intro he; subst he; revert hs; decide)
    · subst hex
      exact ⟨by decide, by decide, by decide, by decide⟩
  have hblank := parseImage_not_blank h
  have hcall := parseCallout_cons_none (r := t) ha.1
  have hfen := parseFence_cons_none (r := t) ha.2.1
  have hlat := isLatexDelim_cons_false (r := t) ha.2.2.1
  have hhead := parseHeader_cons_none (r := t) ha.2.2.2
  simp only [scanLines, List.length_cons, scanGo, hblank, hcall, hfen, hlat, hhead, h,
    Bool.false_eq_true, if_false]

theorem image_fragment_witness :
    parseImage ("![[diagram.png|300]]").toList = some ("diagram.png").toList ∧
      scanLines [("![[diagram.png|300]]").toList] =
        imageFrag (htmlEscape true (pyStrip ("diagram.png").toList)) :: scanLines [] ∧
      imageFrag (htmlEscape true (pyStrip ("diagram.png").toList)) =
        ("<img src=\"../graphics/diagram.png\" alt=\"diagram.png\">").toList :=
  ⟨by decide,
    image_fragment (("![[diagram.png|300]]").toList) (("diagram.png").toList) [] (by decide),
    by decide⟩

lemma escChar_mem {q : Bool} {c a : Char} (h : a ∈ escChar q c) :
    a = c ∨ a ∈ entityChars := by
  unfold escChar at h
  split_ifs at h
  · exact Or.inr ((by decide : ∀ x ∈ ("&amp;").toList, x ∈ entityChars) a h)
  · exact Or.inr ((by decide : ∀ x ∈ ("&lt;").toList, x ∈ entityChars) a h)
  · exact Or.inr ((by decide : ∀ x ∈ ("&gt;").toList, x ∈ entityChars) a h)
  · exact Or.inr ((by decide : ∀ x ∈ ("&quot;").toList, x ∈ entityChars) a h)
  · exact Or.inr ((by decide : ∀ x ∈ ("&#x27;").toList, x ∈ entityChars) a h)
  · exact Or.inl (by simpa using h)

lemma escChar_ne_nil (q : Bool) (c : Char) : escChar q c ≠ [] := by
  unfold escChar
  split_ifs <;> simp

lemma htmlEscape_not_mem {q : Bool} {x : List Char} {c : Char}
    (hx : c ∉ x) (hent : c ∉ entityChars) : c ∉ htmlEscape q x := by
  intro hc
  obtain ⟨a, ha, hca⟩ := List.mem_flatMap.mp hc
  rcases escChar_mem hca with rfl | h
  · exact hx ha
  · exact hent h

lemma htmlEscape_append (q : Bool) (u v : List Char) :
    htmlEscape q (u ++ v) = htmlEscape q u ++ htmlEscape q v := by
  simp [htmlEscape]

lemma htmlEscape_cons (q : Bool) (c : Char) (v : List Char) :
    htmlEscape q (c :: v) = escChar q c ++ htmlEscape q v := by
  simp [htmlEscape]

lemma htmlEscape_ne_nil {q : Bool} {x : List Char} (h : x ≠ []) : htmlEscape q x ≠ [] := by
  cases x with
  | nil => exact absurd rfl h
  | cons a t =>
    rw [htmlEscape_cons]
    intro he
    exact escChar_ne_nil q a (List.append_eq_nil.mp he).1

lemma splitMatch_some {dO dC : List Char} {bad : Char} {s content after : List Char}
    (h : splitMatch dO bad dC s = some (content, after)) :
    s = dO ++ content ++ dC ++ after ∧ content ≠ [] ∧ ∀ c ∈ content, c ≠ bad := by
  simp only [splitMatch] at h
  by_cases hp : dO.isPrefixOf s = true
  case neg => rw [if_neg hp] at h; exact Option.noConfusion h
  rw [if_pos hp] at h
  obtain ⟨r, hr⟩ := List.isPrefixOf_iff_prefix.mp hp
  have hdrop : s.drop dO.length = r := by rw [← hr]; exact List.drop_left dO r
  rw [hdrop] at h
  by_cases hcne : r.takeWhile (fun c => c ≠ bad) = []
  case pos => rw [if_pos hcne] at h; exact Option.noConfusion h
  rw [if_neg hcne] at h
  by_cases hdc : dC.isPrefixOf (r.dropWhile (fun c => c ≠ bad)) = true
  case neg => rw [if_neg hdc] at h; exact Option.noConfusion h
  rw [if_pos hdc] at h
  have hpair := Option.some.inj h
  have hcontent : r.takeWhile (fun c => c ≠ bad) = content := congrArg Prod.fst hpair
  have hafter : (r.dropWhile (fun c => c ≠ bad)).drop dC.length = after := congrArg Prod.snd hpair
  obtain ⟨w, hw⟩ := List.isPrefixOf_iff_prefix.mp hdc
  have hwdrop : (r.dropWhile (fun c => c ≠ bad)).drop dC.length = w := by
    rw [← hw]; exact List.drop_left dC w
  have haw : after = w := by rw [← hafter, hwdrop]
  refine ⟨?_, ?_, ?_⟩
  · rw [← hr, ← List.takeWhile_append_dropWhile (fun c => decide (c ≠ bad)) r]
    rw [hcontent, ← hw, haw]
    simp
  · rw [← hcontent]; exact hcne
  · intro c hc
    rw [← hcontent] at hc
    simpa using List.mem_takeWhile_imp hc

lemma splitMatch_after_len {dO dC : List Char} {bad : Char} {s content after : List Char}
    (h : splitMatch dO bad dC s = some (content, after)) : after.length < s.length := by
  obtain ⟨hs, hne, _⟩ := splitMatch_some h
  have : 0 < content.length := List.length_pos.mpr hne
  rw [hs]
  simp [List.length_append]
  omega

lemma splitMatch_none_of_head {d0 c : Char} {dr dC s : List Char} {bad : Char}
    (h : c ≠ d0) : splitMatch (d0 :: dr) bad dC (c :: s) = none := by
  simp only [splitMatch]
  rw [if_neg]
  intro hp
  obtain ⟨hd, _⟩ := List.cons_prefix_cons.mp ( List.isPrefixOf_iff_prefix.mp hp)
  exact h hd.symm

lemma subGo_congr (dO : List Char) (bad : Char) (dC pre post : List Char) :
    ∀ (f g : Nat) (s : List Char), s.length ≤ f → s.length ≤ g →
      subGo dO bad dC pre post f s = subGo dO bad dC pre post g s := by
  intro f
  induction f with
  | zero =>
    intro g s hf _
    have h : s = [] := List.length_eq_zero.mp (Nat.le_zero.mp hf)
    subst h
    cases g <;> rfl
  | succ f ih =>
    intro g s hf hg
    cases s with
    | nil => cases g <;> rfl
    | cons ch rest =>
      cases g with
      | zero => simp at hg
      | succ g =>
        have hf' : rest.length ≤ f := by simpa using hf
        have hg' : rest.length ≤ g := by simpa using hg
        simp only [subGo]
        cases hm : splitMatch dO bad dC (ch :: rest) with
        | some ca =>
          have hlen : ca.2.length < (ch :: rest).length := splitMatch_after_len (by
            rw [hm])
          have hca : ca.2.length ≤ rest.length := by
            simpa [Nat.lt_succ_iff] using hlen
          simp only []
          rw [ih g ca.2 (Nat.le_trans hca hf') (Nat.le_trans hca hg')]
        | none =>
          simp only []
          rw [ih g rest hf' hg']

lemma subGo_eq_subRule (dO : List Char) (bad : Char) (dC pre post : List Char)
    (f : Nat) (s : List Char) (h : s.length ≤ f) :
    subGo dO bad dC pre post f s = subRule dO bad dC pre post s :=
  subGo_congr dO bad dC pre post f s.length s h (Nat.le_refl _)

lemma subGo_copy {d0 : Char} {dr : List Char} {bad : Char} {dC pre post : List Char} :
    ∀ (t s : List Char) (f : Nat), (∀ c ∈ t, c ≠ d0) → (t ++ s).length ≤ f →
      subGo (d0 :: dr) bad dC pre post f (t ++ s) =
        t ++ subGo (d0 :: dr) bad dC pre post s.length s := by
  intro t
  induction t with
  | nil =>
    intro s f _ hf
    simpa using subGo_congr (d0 :: dr) bad dC pre post f s.length s (by simpa using hf)
      (Nat.le_refl _)
  | cons c t ih =>
    intro s f hc hf
    cases f with
    | zero => simp at hf
    | succ f =>
      have hcd : c ≠ d0 := hc c (by simp)
      simp only [List.cons_append, subGo, splitMatch_none_of_head hcd, List.append_eq]
      rw [ih s f (fun a ha => hc a (by simp [ha])) (by simpa using hf)]

lemma prefix_append_split {α : Type} {t x y : List α} (h : t <+: x ++ y) :
    t <+: x ∨ ∃ t2, t = x ++ t2 ∧ t2 <+: y := by
  induction x generalizing t with
  | nil => exact Or.inr ⟨t, by simp, by simpa using h⟩
  | cons a x ih =>
    cases t with
    | nil => exact Or.inl List.nil_prefix
    | cons b t =>
      rw [List.cons_append] at h
      obtain ⟨hb, ht⟩ := List.cons_prefix_cons.mp h
      rcases ih ht with h1 | ⟨t2, rfl, h2⟩
      · exact Or.inl (List.cons_prefix_cons.mpr ⟨hb, h1⟩)
      · exact Or.inr ⟨t2, by simp [hb], h2⟩

lemma infix_append_split {α : Type} {t x y : List α} (h : t <:+: x ++ y) :
    t <:+: x ∨ t <:+: y ∨
      ∃ t1 t2, t = t1 ++ t2 ∧ t1 ≠ [] ∧ t2 ≠ [] ∧ t1 <:+ x ∧ t2 <+: y := by
  induction x generalizing t with
  | nil => exact Or.inr (Or.inl (by simpa using h))
  | cons a x ih =>
    rw [List.cons_append] at h
    rcases List.infix_cons_iff.mp h with hpre | hinf
    · cases t with
      | nil => exact Or.inl List.nil_infix
      | cons b t =>
        obtain ⟨hb, ht⟩ := List.cons_prefix_cons.mp hpre
        subst hb
        rcases prefix_append_split ht with h1 | ⟨t2, rfl, h2⟩
        · exact Or.inl (List.cons_prefix_cons.mpr ⟨rfl, h1⟩).isInfix
        · by_cases ht2 : t2 = []
          · subst ht2
            exact Or.inl (by simp)
          · refine Or.inr (Or.inr ⟨b :: x, t2, by simp, by simp, ht2, List.suffix_refl _, h2⟩)
    · rcases ih hinf with h1 | h2 | ⟨t1, t2, h3, h4, h5, h6, h7⟩
      · exact Or.inl (List.infix_cons h1)
      · exact Or.inr (Or.inl h2)
      · exact Or.inr (Or.inr ⟨t1, t2, h3, h4, h5, h6.trans (List.suffix_cons a x), h7⟩)

lemma bad_mem_of_infix_allbad {bad : Char} {t x : List Char}
    (hx : ∀ c ∈ x, c = bad) (htn : t ≠ []) (h : t <:+: x) : bad ∈ t := by
  obtain ⟨c, hc⟩ := List.exists_mem_of_ne_nil t htn
  have hcx : c ∈ x := h.sublist.subset hc
  rw [hx c hcx] at hc
  exact hc

lemma subGo_keeps_marker_free {bad : Char} {dr dC pre post : List Char}
    (hOb : ∀ c ∈ dr, c = bad) (hCne : dC ≠ []) (hCb : ∀ c ∈ dC, c = bad)
    {t : List Char} (ht : bad ∉ t) :
    ∀ (f : Nat) (s : List Char), s.length ≤ f → t <:+: s →
      t <:+: subGo (bad :: dr) bad dC pre post f s := by
  by_cases htn : t = []
  · subst htn; intro f s _ _; exact List.nil_infix
  have hOall : ∀ c ∈ bad :: dr, c = bad := by
    intro c hc
    rcases List.mem_cons.mp hc with h | h
    · exact h
    · exact hOb c h
  intro f
  induction f with
  | zero =>
    intro s hf hinf
    have hs : s = [] := List.length_eq_zero.mp (Nat.le_zero.mp hf)
    subst hs
    exact hinf
  | succ f ih =>
    intro s hf hinf
    cases s with
    | nil => exact hinf
    | cons ch rest =>
      rcases List.infix_cons_iff.mp hinf with hpre | hin
      · -- t is a bad-free prefix: the scanner copies it verbatim
        obtain ⟨s2, hs2⟩ := hpre
        have htd : ∀ c ∈ t, c ≠ bad := fun c hc he => ht (he ▸ hc)
        have hcopy := @subGo_copy bad dr bad dC pre post t s2 (f + 1) htd
          (by rw [hs2]; exact hf)
        rw [← hs2, hcopy]
        exact (List.prefix_append t _).isInfix
      · cases hm : splitMatch (bad :: dr) bad dC (ch :: rest) with
        | none =>
          simp only [subGo, hm]
          exact List.infix_cons (ih rest (by simpa using hf) hin)
        | some ca =>
          obtain ⟨cont, aft⟩ := ca
          obtain ⟨hs, hcne, hcb⟩ := splitMatch_some hm
          have haftlen : aft.length ≤ f := by
            have h1 := splitMatch_after_len hm
            have h2 : (ch :: rest).length ≤ f + 1 := hf
            simp only [List.length_cons] at h1 h2
            omega
          simp only [subGo, hm, List.append_assoc]
          -- t is an infix of (bad :: dr) ++ (cont ++ (dC ++ aft))
          have hinf2 : t <:+: (bad :: dr) ++ (cont ++ (dC ++ aft)) := by
            have he : ch :: rest = (bad :: dr) ++ (cont ++ (dC ++ aft)) := by
              rw [hs]; simp [List.append_assoc]
            rw [← he]
            exact hinf
          rcases infix_append_split hinf2 with h1 | h2 | ⟨t1, t2, h3, h4, _, h6, _⟩
          · exact absurd (bad_mem_of_infix_allbad hOall htn h1) ht
          · rcases infix_append_split h2 with g1 | g2 | ⟨t1, t2, g3, _, g5, _, g7⟩
            · -- t inside the captured content, which is emitted verbatim
              exact g1.trans
                (List.infix_append' pre cont (post ++ subGo (bad :: dr) bad dC pre post f aft))
            · rcases infix_append_split g2 with k1 | k2 | ⟨t1, t2, k3, k4, _, k6, _⟩
              · exact absurd (bad_mem_of_infix_allbad hCb htn k1) ht
              · -- t inside the rest of the string: induction
                have hk := ih aft haftlen k2
                have hsuf : subGo (bad :: dr) bad dC pre post f aft <:+:
                    pre ++ (cont ++ (post ++ subGo (bad :: dr) bad dC pre post f aft)) :=
                  ((List.suffix_append post _).trans
                    ((List.suffix_append cont _).trans (List.suffix_append pre _))).isInfix
                exact hk.trans hsuf
              · -- a nonempty piece of t would be a suffix of the all-bad closer
                have hmem : bad ∈ t1 := bad_mem_of_infix_allbad hCb k4 k6.isInfix
                exact absurd (k3 ▸ List.mem_append_left t2 hmem) ht
            · -- a nonempty piece of t would be a prefix of the all-bad closer
              obtain ⟨e, dC2, rfl⟩ : ∃ e dC2, dC = e :: dC2 := by
                cases dC with
                | nil => exact absurd rfl hCne
                | cons e d => exact ⟨e, d, rfl⟩
              have he : e = bad := hCb e (by simp)
              obtain ⟨b, t3, rfl⟩ : ∃ b t3, t2 = b :: t3 := by
                cases t2 with
                | nil => exact absurd rfl g5
                | cons b t3 => exact ⟨b, t3, rfl⟩
              rw [List.cons_append] at g7
              obtain ⟨hb, _⟩ := List.cons_prefix_cons.mp g7
              rw [hb, he] at g3
              exact absurd (g3 ▸ List.mem_append_right t1 (by simp)) ht
          · -- a nonempty piece of t would be a suffix of the all-bad opener
            have hmem : bad ∈ t1 := bad_mem_of_infix_allbad hOall h4 h6.isInfix
            exact absurd (h3 ▸ List.mem_append_left t2 hmem) ht

lemma splitMatch_code (x v : List Char) (hxne : x ≠ []) (hxb : btick ∉ x) :
    splitMatch [btick] btick [btick] (btick :: (x ++ btick :: v)) = some (x, v) := by
  have h1 : ([btick]).isPrefixOf (btick :: (x ++ btick :: v)) = true :=
    List.isPrefixOf_iff_prefix.mpr (List.cons_prefix_cons.mpr ⟨rfl, List.nil_prefix⟩)
  have htw : (x ++ btick :: v).takeWhile (fun c => c ≠ btick) = x := by
    rw [List.takeWhile_append_of_pos (by
      intro a ha
      simp only [decide_eq_true_eq]
      exact fun he => hxb (he ▸ ha))]
    rw [List.takeWhile_cons_of_neg (by simp)]
    simp
  have hdw : (x ++ btick :: v).dropWhile (fun c => c ≠ btick) = btick :: v := by
    rw [List.dropWhile_append_of_pos (by
      intro a ha
      simp only [decide_eq_true_eq]
      exact fun he => hxb (he ▸ ha))]
    exact List.dropWhile_cons_of_neg (by simp)
  have h2 : ([btick]).isPrefixOf (btick :: v) = true :=
    List.isPrefixOf_iff_prefix.mpr (List.cons_prefix_cons.mpr ⟨rfl, List.nil_prefix⟩)
  simp only [splitMatch, h1, if_true, List.length_cons, List.length_nil, List.drop_succ_cons,
    List.drop_zero, htw, hdw, h2, hxne, if_false, if_neg hxne]

lemma sub1_shape (u x v : List Char) (hu : btick ∉ u) (hx : btick ∉ x) (hxne : x ≠ []) :
    subRule ("`").toList btick ("`").toList ("<code>").toList ("</code>").toList
        (u ++ btick :: (x ++ btick :: v)) =
      u ++ ("<code>").toList ++ x ++ ("</code>").toList ++
        subRule ("`").toList btick ("`").toList ("<code>").toList ("</code>").toList v := by
  have hbt : ("`").toList = [btick] := by decide
  rw [hbt]
  simp only [subRule]
  rw [@subGo_copy btick [] btick [btick] (("<code>").toList) (("</code>").toList) u
    (btick :: (x ++ btick :: v)) (u ++ btick :: (x ++ btick :: v)).length
    (fun c hc he => hu (he ▸ hc)) (Nat.le_refl _)]
  rw [show (btick :: (x ++ btick :: v)).length = (x ++ btick :: v).length + 1 from by simp]
  simp only [subGo, splitMatch_code x v hxne hx]
  rw [subGo_congr [btick] btick [btick] (("<code>").toList) (("</code>").toList)
    (x ++ btick :: v).length v.length v (by simp [List.length_append]; omega) (Nat.le_refl _)]
  simp [List.append_assoc]

lemma subRule_keeps_marker_free {bad : Char} {dr dC pre post : List Char}
    (hOb : ∀ c ∈ dr, c = bad) (hCne : dC ≠ []) (hCb : ∀ c ∈ dC, c = bad)
    {t s : List Char} (ht : bad ∉ t) (h : t <:+: s) :
    t <:+: subRule (bad :: dr) bad dC pre post s := by
  simp only [subRule]
  exact subGo_keeps_marker_free hOb hCne hCb ht _ _ (Nat.le_refl _) h

set_option maxRecDepth 8000 in
/-- C4 counterexample: for the line `` `**a**` `` the code rule emits
`<code>**a**</code>`, but the later bold rule re-scans the whole string and
rewrites the span's content, producing `<code><strong>a</strong></code>` —
the emitted code element is not left unchanged, and the claimed output
`<code>**a**</code>` does not occur in the result at all. -/
theorem code_span_rescanned_cex :
    inline_md ("`**a**`").toList = ("<code><strong>a</strong></code>").toList ∧
    containsSub ("<code>**a**</code>").toList (inline_md ("`**a**`").toList) = false := by
  decide

/-- C4 amended: for every input line whose first code span has a content
free of the marker characters `*` and `_`, the span becomes
`<code>x</code>` with `x` the span content HTML-escaped exactly once, and
this code element survives all later bold/italic/underscore rules intact,
regardless of markers occurring elsewhere in the line.  (Span contents
containing marker characters can be rewritten by the later rules — see the
counterexample.) -/
theorem code_span_intact (u x v : List Char)
    (hu : btick ∉ u) (hx : btick ∉ x) (hxne : x ≠ [])
    (hstar : '*' ∉ x) (hunder : '_' ∉ x) :
    (("<code>").toList ++ htmlEscape false x ++ ("</code>").toList) <:+:
      inline_md (u ++ btick :: (x ++ btick :: v)) := by
  have hesc : htmlEscape false (u ++ btick :: (x ++ btick :: v)) =
      htmlEscape false u ++ btick :: (htmlEscape false x ++ btick :: htmlEscape false v) := by
    rw [htmlEscape_append, htmlEscape_cons, htmlEscape_append, htmlEscape_cons]
    rw [show escChar false btick = [btick] from by decide]
    simp
  have heu : btick ∉ htmlEscape false u := htmlEscape_not_mem hu (by decide)
  have hex : btick ∉ htmlEscape false x := htmlEscape_not_mem hx (by decide)
  have hexne : htmlEscape false x ≠ [] := htmlEscape_ne_nil hxne
  have hexs : '*' ∉ htmlEscape false x := htmlEscape_not_mem hstar (by decide)
  have hexu : '_' ∉ htmlEscape false x := htmlEscape_not_mem hunder (by decide)
  have hts : '*' ∉ ("<code>").toList ++ htmlEscape false x ++ ("</code>").toList := by
    intro hmem
    rcases List.mem_append.mp hmem with hmem2 | h3
    · rcases List.mem_append.mp hmem2 with h1 | h2
      · revert h1; decide
      · exact hexs h2
    · revert h3; decide
  have htu : '_' ∉ ("<code>").toList ++ htmlEscape false x ++ ("</code>").toList := by
    intro hmem
    rcases List.mem_append.mp hmem with hmem2 | h3
    · rcases List.mem_append.mp hmem2 with h1 | h2
      · revert h1; decide
      · exact hexu h2
    · revert h3; decide
  have step1 : (("<code>").toList ++ htmlEscape false x ++ ("</code>").toList) <:+:
      subRule ("`").toList btick ("`").toList ("<code>").toList ("</code>").toList
        (htmlEscape false (u ++ btick :: (x ++ btick :: v))) := by
    rw [hesc, sub1_shape (htmlEscape false u) (htmlEscape false x) (htmlEscape false v)
      heu hex hexne]
    exact ⟨htmlEscape false u,
      subRule ("`").toList btick ("`").toList ("<code>").toList ("</code>").toList
        (htmlEscape false v), by simp [List.append_assoc]⟩
  simp only [inline_md]
  rw [show ("**").toList = '*' :: [('*')] from by decide,
    show ("__").toList = '_' :: [('_')] from by decide,
    show ("*").toList = '*' :: ([] : List Char) from by decide,
    show ("_").toList = '_' :: ([] : List Char) from by decide]
  exact subRule_keeps_marker_free (by decide) (by decide) (by decide) htu
    (subRule_keeps_marker_free (by decide) (by decide) (by decide) hts
      (subRule_keeps_marker_free (by decide) (by decide) (by decide) htu
        (subRule_keeps_marker_free (by decide) (by decide) (by decide) hts step1)))

theorem code_span_intact_witness :
    btick ∉ ("see ").toList ∧ btick ∉ ("a<b").toList ∧ ("a<b").toList ≠ [] ∧
    '*' ∉ ("a<b").toList ∧ '_' ∉ ("a<b").toList ∧
    (("<code>").toList ++ htmlEscape false ("a<b").toList ++ ("</code>").toList) <:+:
      inline_md (("see ").toList ++ btick :: (("a<b").toList ++ btick :: (" and **c**").toList)) :=
  ⟨by decide, by decide, by decide, by decide, by decide,
    code_span_intact (("see ").toList) (("a<b").toList) ((" and **c**").toList)
      (by decide) (by decide) (by decide) (by decide) (by decide)⟩
